import Mathlib

/-!
# tired-manager: job loader, credential loader, auth gate, job handler, idle coordinator

A shallow embedding of `main.go` and `idle_manager.go`.

Go strings are embedded as their sequence of characters (`GoString`), which is
the view the library functions used by the program (`strings.TrimSpace`,
`strings.Split`, `strings.Cut`, `bufio.ScanLines`) have of valid UTF-8 text.
Panics (`log.Panicf`) are embedded as the `error` side of `Except`.
Durations and instants are natural numbers of one common time unit.
-/

namespace TiredManager

/-- A Go string, seen as the sequence of its characters. -/
abbrev GoString := List Char

/-! ## Library functions used by the loaders -/

/-- Go's `unicode.IsSpace`: the characters `strings.TrimSpace` removes and
`strings.Fields` separates on. -/
def isSpace (c : Char) : Bool :=
  let n := c.toNat
  (9 ≤ n && n ≤ 13) || n == 32 || n == 0x85 || n == 0xA0 || n == 0x1680 ||
  (0x2000 ≤ n && n ≤ 0x200A) || n == 0x2028 || n == 0x2029 || n == 0x202F ||
  n == 0x205F || n == 0x3000

/-- Go's `strings.TrimSpace`: all leading and trailing white space removed. -/
def trimSpace (s : GoString) : GoString :=
  ((s.dropWhile isSpace).reverse.dropWhile isSpace).reverse

/-- The loop that cuts a string at every character satisfying `p`: it runs
through the string with the piece being read and the pieces already finished,
both kept in reverse. -/
def splitLoop (p : Char → Bool) : GoString → GoString → List GoString → List GoString
  | [], piece, done => (piece.reverse :: done).reverse
  | c :: cs, piece, done =>
    if p c then splitLoop p cs [] (piece.reverse :: done)
    else splitLoop p cs (c :: piece) done

/-- Cut a string at every character satisfying `p`; the pieces between the
cut points are returned in order, empty pieces included. -/
def splitP (p : Char → Bool) (s : GoString) : List GoString :=
  splitLoop p s [] []

/-- Go's `strings.Split(s, sep)` for a one-character separator: the
`Count(s, sep) + 1` pieces of `s` between the separators. -/
def split (s : GoString) (sep : Char) : List GoString :=
  splitP (fun c => c == sep) s

/-- Go's `strings.Cut(s, sep)` for a one-character separator: the text before
the first `sep`, the text after it, and whether `sep` occurs at all; when it
does not, the result is `(s, "", false)`. -/
def cut (s : GoString) (sep : Char) : GoString × GoString × Bool :=
  match s.dropWhile (fun c => c != sep) with
  | [] => (s, [], false)
  | _ :: rest => (s.takeWhile (fun c => c != sep), rest, true)

/-- The function `dropCR` of `bufio`: one trailing carriage return removed. -/
def dropCR (l : GoString) : GoString :=
  if l.getLast? = some '\r' then l.dropLast else l

/-- The number of bytes of a character in UTF-8. -/
def utf8Size (c : Char) : Nat :=
  if c.toNat < 0x80 then 1
  else if c.toNat < 0x800 then 2
  else if c.toNat < 0x10000 then 3
  else 4

/-- Go's `len(s)`: the number of bytes of the string. -/
def byteLen (s : GoString) : Nat :=
  (s.map utf8Size).sum

/-- The constant `bufio.MaxScanTokenSize`, the largest buffer a `Scanner`
allocates. -/
def maxScanTokenSize : Nat := 64 * 1024

/-- The lines of a text as `bufio.ScanLines` cuts them, before the carriage
return is dropped: the text between the newlines, a final empty remainder
being no line. -/
def rawLines (content : GoString) : List GoString :=
  let segs := splitP (fun c => c == '\n') content
  if segs.getLast? = some [] then segs.dropLast else segs

/-- A line the scanner can deliver: with its end-of-line marker it has to fit
the buffer of `maxScanTokenSize` bytes, so it has fewer bytes than that. -/
def fitsBuffer (raw : GoString) : Bool :=
  byteLen raw < maxScanTokenSize

/-- The tokens `bufio.Scanner` delivers with its default split function
`bufio.ScanLines` (each `scanner.Text()` of a successful `scanner.Scan()`):
the lines of the text, each without one trailing carriage return, up to the
first line that does not fit the buffer; there `Scan` returns false with
`ErrTooLong` and delivers nothing more. -/
def scanLines (content : GoString) : List GoString :=
  ((rawLines content).takeWhile fitsBuffer).map dropCR

/-- All the lines of a text, each without one trailing carriage return,
whatever their length. -/
def textLines (content : GoString) : List GoString :=
  (rawLines content).map dropCR

/-! ## main.go: loadJobs -/

/-- The panics of the two loaders. -/
inductive LoadError where
  /-- `log.Panicf("Unable to load jobs file %s: %s", fname, err)` -/
  | cannotOpen
  /-- `log.Panicf("Invalid job line: %s", line)` -/
  | invalidJobLine (line : GoString)
  /-- `log.Panicf("invalid token pair: %s", pair)` -/
  | invalidTokenPair (pair : GoString)
  /-- `log.Panic("Missing valid tokens")` -/
  | missingTokens
  deriving DecidableEq, Repr

deriving instance DecidableEq for Except

/-- The body of the scanning loop of `loadJobs`, run over the remaining lines
with the jobs collected so far. -/
def loadJobsLoop : List GoString → List (List GoString) → Except LoadError (List (List GoString))
  | [], jobs => .ok jobs
  | text :: rest, jobs =>
    let line := trimSpace text
    if line.length = 0 || line.head? = some '#' then
      loadJobsLoop rest jobs
    else
      let job := split line ' '
      if job.length < 2 then .error (.invalidJobLine line)
      else loadJobsLoop rest (jobs ++ [job])

/-- The function `loadJobs` of `main.go`, on the content of the jobs file
(`none` when the file cannot be opened).  The loop ends when `scanner.Scan()`
returns false, at the end of the text or at a line that is too long;
`scanner.Err()` is not looked at. -/
def loadJobs (file : Option GoString) : Except LoadError (List (List GoString)) :=
  match file with
  | none => .error .cannotOpen
  | some content => loadJobsLoop (scanLines content) []

/-- The lines `loadJobs` does not skip, the lines that are neither blank nor
comments: after trimming, the line is not empty and does not start with `#`. -/
def isJobLine (text : GoString) : Bool :=
  !((trimSpace text).length = 0 || (trimSpace text).head? = some '#')

/-- The white-space-separated tokens of a string (what `strings.Fields`
returns): the non-empty pieces between white-space characters.  This is the
splitting the specification describes; `loadJobs` uses `split` instead. -/
def fields (s : GoString) : List GoString :=
  (splitP isSpace s).filter (fun t => !t.isEmpty)

/-- Tokens written on one line, separated by single spaces. -/
def joinSpace (tokens : List GoString) : GoString :=
  [' '].intercalate tokens

/-- A Go `map[string]string`, as an association list with distinct keys. -/
abbrev GoMap := List (GoString × GoString)

/-- The lookup `v, ok := m[k]`. -/
def mapGet (m : GoMap) (k : GoString) : Option GoString :=
  (m.find? (fun e => e.1 == k)).map (fun e => e.2)

/-- The assignment `m[k] = v`. -/
def mapSet (m : GoMap) (k v : GoString) : GoMap :=
  (k, v) :: m.filter (fun e => e.1 != k)

/-- The loop of `loadTokens` over the remaining pairs, with the map built so
far. -/
def loadTokensLoop : List GoString → GoMap → Except LoadError GoMap
  | [], tokens => .ok tokens
  | pair :: rest, tokens =>
    match cut pair ' ' with
    | (user, tkn, true) => loadTokensLoop rest (mapSet tokens tkn user)
    | (_, _, false) => .error (.invalidTokenPair pair)

/-- The function `loadTokens` of `main.go`, on the value of the environment
variable `TOKENS` (the empty string when it is unset). -/
def loadTokens (raw_tokens : GoString) : Except LoadError GoMap :=
  match loadTokensLoop (split raw_tokens '|') [] with
  | .error e => .error e
  | .ok tokens => if tokens.length = 0 then .error .missingTokens else .ok tokens

/-- The specification's well-formed credential entry: an identity and a token
separated by a space (the first space splits them), neither of them empty.
`loadTokens` does not use it. -/
def entryWellFormed (entry : GoString) : Bool :=
  let identity := entry.takeWhile (fun c => c != ' ')
  match entry.dropWhile (fun c => c != ' ') with
  | [] => false
  | _ :: token => !identity.isEmpty && !token.isEmpty

/-- The credential string written from a list of (identity, token) entries:
each entry is `identity token`, entries are separated by `|`. -/
def writeTokens (entries : List (GoString × GoString)) : GoString :=
  ['|'].intercalate (entries.map (fun e => e.1 ++ ' ' :: e.2))

/-! ## idle_manager.go: CheckBearer -/

/-- Go's `http.Header`, a `map[string][]string`. -/
abbrev Header := List (GoString × List GoString)

/-- The request, as far as the middleware reads and changes it. -/
structure Request where
  header : Header
  deriving DecidableEq, Repr

/-- The key `http.CanonicalHeaderKey("Bearer")`. -/
def bearerKey : GoString := "Bearer".toList

/-- The lookup `h[key]`. -/
def headerValues (h : Header) (key : GoString) : Option (List GoString) :=
  (h.find? (fun e => e.1 == key)).map (fun e => e.2)

/-- Go's `Header.Get`: the first value stored under the key, or the empty
string when there is none. -/
def headerGet (h : Header) (key : GoString) : GoString :=
  match headerValues h key with
  | some (v :: _) => v
  | _ => []

/-- The assignment `h[key] = values`. -/
def headerSet (h : Header) (key : GoString) (values : List GoString) : Header :=
  (key, values) :: h.filter (fun e => e.1 != key)

/-- What the middleware did with a request. -/
inductive GateResult where
  /-- `log.Printf("request from %s", user)` and `next.ServeHTTP(w, r)` -/
  | forward (logged : GoString) (r : Request)
  /-- `w.WriteHeader(status)`, the downstream handler is not called -/
  | deny (status : Nat)
  deriving DecidableEq, Repr

/-- The constant `http.StatusUnauthorized`. -/
def StatusUnauthorized : Nat := 401

/-- The handler returned by `CheckBearer(creds)(next)`, on request `r`. -/
def CheckBearer (creds : GoMap) (r : Request) : GateResult :=
  let token := headerGet r.header bearerKey
  if token ≠ [] then
    match mapGet creds token with
    | some user =>
      .forward user { r with header := headerSet r.header "x-user".toList [user] }
    | none => .deny StatusUnauthorized
  else .deny StatusUnauthorized

/-! ## idle_manager.go: the job handler registered by Handle -/

/-- The result of `cmd.CombinedOutput()`: the captured output and the error. -/
structure ProcResult where
  out : GoString
  err : Option GoString
  deriving DecidableEq, Repr

/-- The effects of a job handler on the timer, the operating system and the
response. -/
inductive Effect where
  /-- `p.timer.Reset(d)` -/
  | timerReset (d : Nat)
  /-- `log.Println(cmd)` -/
  | logCmd (command : GoString) (args : List GoString)
  /-- `cmd.CombinedOutput()` of the command built by `exec.CommandContext` -/
  | run (command : GoString) (args : List GoString)
  /-- `w.Write(body)` -/
  | write (body : GoString)
  /-- a run-time panic (index out of range) -/
  | indexPanic
  deriving DecidableEq, Repr

/-- The handler `Handle` registers for `job`, as the sequence of its effects;
`os` tells how each command ends. -/
def handleJob (idleTime jobTime : Nat) (os : GoString → List GoString → ProcResult)
    (job : List GoString) : List Effect :=
  match job with
  | _ :: command :: args =>
    let res := os command args
    [.timerReset jobTime, .logCmd command args, .run command args,
     .write (match res.err with
             | some e => e
             | none => res.out),
     .timerReset idleTime]
  | _ => [.timerReset jobTime, .indexPanic]

/-- The effects of a handler other than its log line. -/
def Effect.isLog : Effect → Bool
  | .logCmd _ _ => true
  | _ => false

/-! ## idle_manager.go: the idle timer and the idle race, in discrete time -/

/-- Why the idle race ended. -/
inductive Cause where
  | idleTimeout
  | cancelled
  deriving DecidableEq, Repr

/-- The state of the coordinator's idle race. -/
inductive Phase where
  | running
  | shuttingDown (cause : Cause)
  deriving DecidableEq, Repr

/-- The coordinator: its two durations, the current instant, the instant at
which the armed timer fires (`none` once it has fired), and the phase. -/
structure Coord where
  idleTime : Nat
  jobTime : Nat
  now : Nat
  timer : Option Nat
  phase : Phase
  deriving DecidableEq, Repr

/-- What can happen to the coordinator. -/
inductive Event where
  /-- one unit of time passes -/
  | tick
  /-- a job handler starts: `p.timer.Reset(p.jobTime)` -/
  | jobStart
  /-- a job handler ends: `p.timer.Reset(p.idleTime)` -/
  | jobEnd
  /-- the context is cancelled: `<-ctx.Done()` -/
  | cancel
  deriving DecidableEq, Repr

/-- The timer fires once its instant is reached; the `select` of the idle
race, which runs only once, takes the firing if it is still waiting. -/
def Coord.settle (c : Coord) : Coord :=
  match c.timer with
  | some e =>
    if e ≤ c.now then
      { c with timer := none,
               phase := match c.phase with
                 | .running => .shuttingDown .idleTimeout
                 | ph => ph }
    else c
  | none => c

/-- One event. -/
def Coord.step (c : Coord) : Event → Coord
  | .tick => Coord.settle { c with now := c.now + 1 }
  | .jobStart => Coord.settle { c with timer := some (c.now + c.jobTime) }
  | .jobEnd => Coord.settle { c with timer := some (c.now + c.idleTime) }
  | .cancel =>
    { c with phase := match c.phase with
               | .running => .shuttingDown .cancelled
               | ph => ph }

/-- A sequence of events. -/
def Coord.run (c : Coord) (events : List Event) : Coord :=
  events.foldl Coord.step c

/-- The channel `chanFinish`, `make(chan error, 1)`. -/
structure Chan where
  buf : List GoString
  closed : Bool
  deriving DecidableEq, Repr

/-- The run-time panics of channel operations. -/
inductive ChanPanic where
  | sendOnClosed
  | closeOfClosed
  deriving DecidableEq, Repr

/-- The error returned by `ListenAndServe`. -/
inductive ServeErr where
  | serverClosed
  | other (text : GoString)
  deriving DecidableEq, Repr

/-- The results of the two library calls. -/
structure Calls where
  shutdownErr : Option GoString
  serveErr : ServeErr
  deriving DecidableEq, Repr

/-- Where the idle-race goroutine stands. -/
inductive RacePc where
  | selecting
  | inShutdown
  | sending (err : GoString)
  | finished
  deriving DecidableEq, Repr

/-- Where the serve goroutine stands. -/
inductive ServePc where
  | serving
  | sending (err : GoString)
  | closing
  | finished
  deriving DecidableEq, Repr

/-- The two goroutines, the channel, and whether `Shutdown` has been called on
the server. -/
structure Sys where
  chan : Chan
  race : RacePc
  serve : ServePc
  shutdownCalled : Bool
  panicked : Option ChanPanic
  sends : Nat
  closes : Nat
  deriving DecidableEq, Repr

/-- Who takes the next step. -/
inductive Actor where
  /-- the idle-race goroutine -/
  | race
  /-- the serve goroutine -/
  | serve
  /-- a receive from `Done()` -/
  | receiver
  /-- the call `mgr.Shutdown(shutdownCtx)` of `main` on a signal -/
  | main
  deriving DecidableEq, Repr

/-- The state right after `StartIdleManager` has started both goroutines. -/
def Sys.init : Sys :=
  { chan := { buf := [], closed := false }, race := .selecting, serve := .serving,
    shutdownCalled := false, panicked := none, sends := 0, closes := 0 }

/-- A send `mgr.chanFinish <- err`: a panic on a closed channel, a wait (no
change, `none`) on a full buffer, and otherwise the value is buffered. -/
def Sys.send (s : Sys) (err : GoString) : Option Sys :=
  if s.chan.closed then some { s with panicked := some .sendOnClosed }
  else if s.chan.buf.length < 1 then
    some { s with chan := { s.chan with buf := s.chan.buf ++ [err] }, sends := s.sends + 1 }
  else none

/-- One step of one actor; an actor that cannot move leaves the state as it
is, and nothing moves after a panic.  `ListenAndServe` returns
`ErrServerClosed` only once `Shutdown` has been called, by the idle-race
goroutine or by `main`; another error can come at any time. -/
def Sys.step (calls : Calls) (s : Sys) (a : Actor) : Sys :=
  if s.panicked.isSome then s else
  match a with
  | .race =>
    match s.race with
    | .selecting => { s with race := .inShutdown, shutdownCalled := true }
    | .inShutdown =>
      match calls.shutdownErr with
      | some e => { s with race := .sending e }
      | none => { s with race := .finished }
    | .sending e =>
      match s.send e with
      | some t => if t.panicked.isSome then t else { t with race := .finished }
      | none => s
    | .finished => s
  | .serve =>
    match s.serve with
    | .serving =>
      match calls.serveErr with
      | .serverClosed =>
        if s.shutdownCalled then { s with serve := .closing } else s
      | .other e => { s with serve := .sending e }
    | .sending e =>
      match s.send e with
      | some t => if t.panicked.isSome then t else { t with serve := .closing }
      | none => s
    | .closing =>
      if s.chan.closed then { s with panicked := some .closeOfClosed }
      else { s with chan := { s.chan with closed := true }, closes := s.closes + 1,
                    serve := .finished }
    | .finished => s
  | .receiver => { s with chan := { s.chan with buf := s.chan.buf.tail } }
  | .main => { s with shutdownCalled := true }

/-- A schedule of steps from the initial state. -/
def Sys.run (calls : Calls) (schedule : List Actor) : Sys :=
  schedule.foldl (Sys.step calls) Sys.init

/-- What holds of every state reached when `Shutdown` returns no error and
`ListenAndServe` returns `ErrServerClosed`: no panic, nothing sent, and the
channel is closed exactly when the serve goroutine has finished. -/
def Sys.Clean (s : Sys) : Prop :=
  s.panicked = none ∧ s.sends = 0 ∧ s.chan.buf = [] ∧
  (∀ e, s.race ≠ .sending e) ∧
  (((s.serve = .serving ∨ s.serve = .closing) ∧ s.chan.closed = false ∧ s.closes = 0) ∨
    (s.serve = .finished ∧ s.chan.closed = true ∧ s.closes = 1))

/-! ## Facts about the library functions -/

theorem splitLoop_eq (p : Char → Bool) (s piece : GoString) (done : List GoString) :
    splitLoop p s piece done =
      done.reverse ++
        (match splitLoop p s [] [] with
         | [] => [piece.reverse]
         | x :: xs => (piece.reverse ++ x) :: xs) := by
  induction s generalizing piece done with
  | nil => simp [splitLoop]
  | cons c cs ih =>
    by_cases hc : p c = true
    · have h1 : splitLoop p (c :: cs) piece done
          = splitLoop p cs [] (piece.reverse :: done) := by
        simp [splitLoop, hc]
      have h2 : splitLoop p (c :: cs) [] [] = splitLoop p cs [] [[]] := by
        simp [splitLoop, hc]
      rw [h1, h2, ih [] (piece.reverse :: done), ih [] [[]]]
      cases splitLoop p cs [] [] <;> simp
    · have h1 : splitLoop p (c :: cs) piece done = splitLoop p cs (c :: piece) done := by
        simp [splitLoop, hc]
      have h2 : splitLoop p (c :: cs) [] [] = splitLoop p cs [c] [] := by
        simp [splitLoop, hc]
      rw [h1, h2, ih (c :: piece) done, ih [c] []]
      cases splitLoop p cs [] [] <;> simp

theorem splitLoop_ne_nil (p : Char → Bool) (s piece : GoString) (done : List GoString) :
    splitLoop p s piece done ≠ [] := by
  induction s generalizing piece done with
  | nil => simp [splitLoop]
  | cons c cs ih =>
    by_cases hc : p c = true
    · simp only [splitLoop, hc, if_true]
      exact ih _ _
    · simp only [splitLoop, hc]
      exact ih _ _

theorem splitP_nil (p : Char → Bool) : splitP p [] = [[]] := rfl

theorem splitP_cons (p : Char → Bool) (c : Char) (cs : GoString) :
    splitP p (c :: cs) =
      if p c then [] :: splitP p cs
      else
        match splitP p cs with
        | [] => [[c]]
        | x :: xs => (c :: x) :: xs := by
  unfold splitP
  by_cases hc : p c = true
  · have h2 : splitLoop p (c :: cs) [] [] = splitLoop p cs [] [[]] := by
      simp [splitLoop, hc]
    rw [h2, splitLoop_eq p cs [] [[]]]
    have hne := splitLoop_ne_nil p cs [] []
    cases hS : splitLoop p cs [] [] with
    | nil => exact absurd hS hne
    | cons x xs => simp [hc]
  · have h2 : splitLoop p (c :: cs) [] [] = splitLoop p cs [c] [] := by
      simp [splitLoop, hc]
    rw [h2, splitLoop_eq p cs [c] []]
    have hne := splitLoop_ne_nil p cs [] []
    cases hS : splitLoop p cs [] [] with
    | nil => exact absurd hS hne
    | cons x xs => simp [hc]

theorem splitP_ne_nil (p : Char → Bool) (s : GoString) : splitP p s ≠ [] := by
  cases s with
  | nil => simp [splitP_nil]
  | cons c cs =>
    rw [splitP_cons]
    split
    · simp
    · split <;> simp

theorem splitP_append_sep (p : Char → Bool) (a : GoString) (w : Char) (b : GoString)
    (hw : p w = true) : splitP p (a ++ w :: b) = splitP p a ++ splitP p b := by
  induction a with
  | nil => simp [splitP_nil, splitP_cons, hw]
  | cons c cs ih =>
    by_cases hc : p c = true
    · simp [splitP_nil, splitP_cons, hc, ih]
    · have hne := splitP_ne_nil p cs
      cases hcs : splitP p cs with
      | nil => exact absurd hcs hne
      | cons x xs => simp [splitP_nil, splitP_cons, hc, ih, hcs]

theorem splitP_of_forall_not (p : Char → Bool) (s : GoString)
    (h : ∀ c ∈ s, p c = false) : splitP p s = [s] := by
  induction s with
  | nil => simp [splitP_nil, splitP_cons]
  | cons c cs ih =>
    have hc : p c = false := h c (List.mem_cons_self _ _)
    have hcs := ih (fun d hd => h d (List.mem_cons_of_mem _ hd))
    simp [splitP_nil, splitP_cons, hc, hcs]

theorem splitP_intercalate (p : Char → Bool) (sep : Char) (hsep : p sep = true)
    (ts : List GoString) (hts : ts ≠ []) (h : ∀ t ∈ ts, ∀ c ∈ t, p c = false) :
    splitP p ([sep].intercalate ts) = ts := by
  induction ts with
  | nil => exact absurd rfl hts
  | cons t rest ih =>
    cases rest with
    | nil =>
      simpa [List.intercalate] using splitP_of_forall_not p t (h t (List.mem_cons_self _ _))
    | cons t2 rest2 =>
      have h1 := splitP_of_forall_not p t (h t (List.mem_cons_self _ _))
      have h2 := ih (by simp) (fun u hu => h u (List.mem_cons_of_mem _ hu))
      have e : [sep].intercalate (t :: t2 :: rest2)
          = t ++ sep :: [sep].intercalate (t2 :: rest2) := by
        simp [List.intercalate]
      rw [e, splitP_append_sep p t sep _ hsep, h1, h2]
      rfl

theorem splitP_length (p : Char → Bool) (s : GoString) :
    (splitP p s).length = (s.filter p).length + 1 := by
  induction s with
  | nil => simp [splitP_nil, splitP_cons]
  | cons c cs ih =>
    by_cases hc : p c = true
    · simp [splitP_nil, splitP_cons, hc, ih]
    · have hne := splitP_ne_nil p cs
      cases hcs : splitP p cs with
      | nil => exact absurd hcs hne
      | cons x xs =>
        rw [hcs] at ih
        simp [splitP_nil, splitP_cons, hc, hcs] at ih ⊢
        omega

theorem two_le_split_length_iff (s : GoString) (sep : Char) :
    2 ≤ (split s sep).length ↔ sep ∈ s := by
  unfold split
  rw [splitP_length]
  constructor
  · intro h
    have hpos : 0 < (s.filter (fun c => c == sep)).length := by omega
    obtain ⟨c, hc⟩ := List.exists_mem_of_length_pos hpos
    rw [List.mem_filter] at hc
    have : c = sep := by simpa using hc.2
    exact this ▸ hc.1
  · intro h
    have : sep ∈ s.filter (fun c => c == sep) := by
      rw [List.mem_filter]
      exact ⟨h, by simp⟩
    have := List.length_pos_of_mem this
    omega

theorem isJobLine_iff (text : GoString) :
    isJobLine text = true ↔
      trimSpace text ≠ [] ∧ (trimSpace text).head? ≠ some '#' := by
  unfold isJobLine
  cases h : trimSpace text <;> simp

theorem loadJobsLoop_cons (text : GoString) (rest : List GoString)
    (jobs : List (List GoString)) :
    loadJobsLoop (text :: rest) jobs =
      if isJobLine text = true then
        if (split (trimSpace text) ' ').length < 2 then
          .error (.invalidJobLine (trimSpace text))
        else loadJobsLoop rest (jobs ++ [split (trimSpace text) ' '])
      else loadJobsLoop rest jobs := by
  rw [loadJobsLoop]
  by_cases h : ((trimSpace text).length = 0 || (trimSpace text).head? = some '#') = true
  · have hj : isJobLine text = false := by
      unfold isJobLine
      rw [h]
      rfl
    simp only [h, hj]
    simp
  · have h2 := Bool.eq_false_iff.2 h
    have hj : isJobLine text = true := by
      unfold isJobLine
      rw [h2]
      rfl
    simp only [h2, hj]
    simp

theorem loadJobsLoop_ok_iff (lines : List GoString) (jobs js : List (List GoString)) :
    loadJobsLoop lines jobs = .ok js ↔
      (∀ l ∈ lines, isJobLine l = true → 2 ≤ (split (trimSpace l) ' ').length) ∧
      js = jobs ++ (lines.filter isJobLine).map (fun l => split (trimSpace l) ' ') := by
  induction lines generalizing jobs with
  | nil =>
    simp [loadJobsLoop]
    exact eq_comm
  | cons text rest ih =>
    rw [loadJobsLoop_cons]
    by_cases hj : isJobLine text = true
    · by_cases hlen : (split (trimSpace text) ' ').length < 2
      · simp [hlen, hj]
      · have hlen2 : 2 ≤ (split (trimSpace text) ' ').length := by omega
        simp [hlen, hj, ih, hlen2]
    · simp [hj, ih]

theorem loadJobsLoop_error_of (lines : List GoString) (jobs : List (List GoString))
    (h : ∃ l ∈ lines, isJobLine l = true ∧ (split (trimSpace l) ' ').length < 2) :
    ∃ e, loadJobsLoop lines jobs = .error e := by
  cases hres : loadJobsLoop lines jobs with
  | error e => exact ⟨e, rfl⟩
  | ok js =>
    obtain ⟨l, hl, hjl, hlen⟩ := h
    have := ((loadJobsLoop_ok_iff lines jobs js).1 hres).1 l hl hjl
    omega

/-! ## Facts about trimSpace -/

theorem dropWhile_decomp (p : Char → Bool) (s : GoString) :
    ∃ pre, s = pre ++ s.dropWhile p ∧ ∀ c ∈ pre, p c = true :=
  ⟨s.takeWhile p, (List.takeWhile_append_dropWhile p s).symm,
    fun _ hc => List.mem_takeWhile_imp hc⟩

theorem trimSpace_decomp (s : GoString) :
    ∃ pre post, s = pre ++ trimSpace s ++ post ∧
      (∀ c ∈ pre, isSpace c = true) ∧ (∀ c ∈ post, isSpace c = true) := by
  obtain ⟨pre, hpre, hpre2⟩ := dropWhile_decomp isSpace s
  obtain ⟨q, hq, hq2⟩ := dropWhile_decomp isSpace (s.dropWhile isSpace).reverse
  refine ⟨pre, q.reverse, ?_, hpre2, ?_⟩
  · have h2 : s.dropWhile isSpace = trimSpace s ++ q.reverse := by
      have := congrArg List.reverse hq
      simpa [trimSpace] using this
    rw [List.append_assoc, ← h2]
    exact hpre
  · intro c hc
    exact hq2 c (List.mem_reverse.1 hc)

theorem trimSpace_head (s : GoString) (c : Char) (h : (trimSpace s).head? = some c) :
    isSpace c = false := by
  obtain ⟨q, hq, _⟩ := dropWhile_decomp isSpace (s.dropWhile isSpace).reverse
  have h2 : s.dropWhile isSpace = trimSpace s ++ q.reverse := by
    have := congrArg List.reverse hq
    simpa [trimSpace] using this
  have h3 := List.head?_dropWhile_not isSpace s
  cases ht : trimSpace s with
  | nil => simp [ht] at h
  | cons d t =>
    rw [ht] at h h2
    simp at h
    rw [h2] at h3
    simp at h3
    rw [← h]
    simpa using h3

theorem trimSpace_last (s : GoString) (c : Char) (h : (trimSpace s).getLast? = some c) :
    isSpace c = false := by
  have h3 := List.head?_dropWhile_not isSpace (s.dropWhile isSpace).reverse
  unfold trimSpace at h
  rw [List.getLast?_reverse] at h
  rw [h] at h3
  simpa using h3

theorem trimSpace_eq_self (s : GoString)
    (hhead : ∀ c, s.head? = some c → isSpace c = false)
    (hlast : ∀ c, s.getLast? = some c → isSpace c = false) : trimSpace s = s := by
  have h1 : s.dropWhile isSpace = s := by
    cases s with
    | nil => rfl
    | cons c t =>
      have := hhead c rfl
      simp [List.dropWhile, this]
  have h2 : s.reverse.dropWhile isSpace = s.reverse := by
    cases hr : s.reverse with
    | nil => rfl
    | cons c t =>
      have hc : s.getLast? = some c := by
        rw [← List.head?_reverse, hr]
        rfl
      have := hlast c hc
      simp [List.dropWhile, this]
  unfold trimSpace
  rw [h1, h2, List.reverse_reverse]

/-! ## Facts about white-space-separated tokens -/

theorem mem_splitP_not (p : Char → Bool) (s : GoString) :
    ∀ t ∈ splitP p s, ∀ c ∈ t, p c = false := by
  induction s with
  | nil => simp [splitP_nil, splitP_cons]
  | cons d ds ih =>
    by_cases hd : p d = true
    · intro t ht
      simp [splitP_nil, splitP_cons, hd] at ht
      rcases ht with rfl | ht
      · simp
      · exact ih t ht
    · have hne := splitP_ne_nil p ds
      cases hds : splitP p ds with
      | nil => exact absurd hds hne
      | cons x xs =>
        rw [hds] at ih
        intro t ht
        simp [splitP_nil, splitP_cons, hd, hds] at ht
        rcases ht with rfl | ht
        · intro c hc
          rcases List.mem_cons.1 hc with rfl | hc
          · simpa using hd
          · exact ih x (List.mem_cons_self _ _) c hc
        · exact ih t (List.mem_cons_of_mem _ ht)

theorem mem_fields_not_space (s : GoString) (t : GoString) (ht : t ∈ fields s) :
    t ≠ [] ∧ ∀ c ∈ t, isSpace c = false := by
  unfold fields at ht
  rw [List.mem_filter] at ht
  refine ⟨?_, mem_splitP_not isSpace s t ht.1⟩
  intro h
  simp [h] at ht

theorem fields_cons_space (w : Char) (s : GoString) (hw : isSpace w = true) :
    fields (w :: s) = fields s := by
  simp [fields, splitP_nil, splitP_cons, hw]

theorem fields_append_sep (a : GoString) (w : Char) (b : GoString) (hw : isSpace w = true) :
    fields (a ++ w :: b) = fields a ++ fields b := by
  simp [fields, splitP_append_sep isSpace a w b hw]

theorem fields_spaces_append (pre a : GoString) (h : ∀ c ∈ pre, isSpace c = true) :
    fields (pre ++ a) = fields a := by
  induction pre with
  | nil => rfl
  | cons w ws ih =>
    rw [List.cons_append, fields_cons_space _ _ (h w (List.mem_cons_self _ _))]
    exact ih (fun c hc => h c (List.mem_cons_of_mem _ hc))

theorem fields_of_spaces (s : GoString) (h : ∀ c ∈ s, isSpace c = true) : fields s = [] := by
  have := fields_spaces_append s [] h
  simpa [fields, splitP_nil] using this

theorem fields_append_spaces (a post : GoString) (h : ∀ c ∈ post, isSpace c = true) :
    fields (a ++ post) = fields a := by
  cases post with
  | nil => simp
  | cons w ws =>
    rw [fields_append_sep a w ws (h w (List.mem_cons_self _ _)),
      fields_of_spaces ws (fun c hc => h c (List.mem_cons_of_mem _ hc))]
    simp

theorem fields_trimSpace (s : GoString) : fields (trimSpace s) = fields s := by
  obtain ⟨pre, post, hs, hpre, hpost⟩ := trimSpace_decomp s
  conv_rhs => rw [hs]
  rw [fields_append_spaces _ _ hpost, fields_spaces_append _ _ hpre]

theorem fields_ne_nil (s : GoString) (h : ∃ c ∈ s, isSpace c = false) : fields s ≠ [] := by
  induction s with
  | nil => simp at h
  | cons d ds ih =>
    by_cases hd : isSpace d = true
    · rw [fields_cons_space d ds hd]
      apply ih
      obtain ⟨c, hc, hc2⟩ := h
      rcases List.mem_cons.1 hc with rfl | hc
      · rw [hd] at hc2
        cases hc2
      · exact ⟨c, hc, hc2⟩
    · have hne := splitP_ne_nil isSpace ds
      cases hds : splitP isSpace ds with
      | nil => exact absurd hds hne
      | cons x xs => simp [fields, splitP_nil, splitP_cons, hd, hds]

/-! ## Facts about lines written with single spaces -/

theorem joinSpace_cons_cons (t t2 : GoString) (r : List GoString) :
    joinSpace (t :: t2 :: r) = t ++ ' ' :: joinSpace (t2 :: r) := by
  simp [joinSpace, List.intercalate]

theorem joinSpace_single (t : GoString) : joinSpace [t] = t := by
  simp [joinSpace, List.intercalate]

theorem mem_joinSpace (ts : List GoString) (c : Char) (hc : c ∈ joinSpace ts) :
    c = ' ' ∨ ∃ t ∈ ts, c ∈ t := by
  induction ts with
  | nil => simp [joinSpace, List.intercalate] at hc
  | cons t r ih =>
    cases r with
    | nil =>
      rw [joinSpace_single] at hc
      exact Or.inr ⟨t, List.mem_cons_self _ _, hc⟩
    | cons t2 r2 =>
      rw [joinSpace_cons_cons, List.mem_append, List.mem_cons] at hc
      rcases hc with hc | hc | hc
      · exact Or.inr ⟨t, List.mem_cons_self _ _, hc⟩
      · exact Or.inl hc
      · rcases ih hc with h | ⟨u, hu, hcu⟩
        · exact Or.inl h
        · exact Or.inr ⟨u, List.mem_cons_of_mem _ hu, hcu⟩

theorem joinSpace_head? (t : GoString) (r : List GoString) (ht : t ≠ []) :
    (joinSpace (t :: r)).head? = t.head? := by
  cases t with
  | nil => exact absurd rfl ht
  | cons c cs =>
    cases r with
    | nil => rw [joinSpace_single]
    | cons t2 r2 =>
      rw [joinSpace_cons_cons]
      rfl

theorem joinSpace_ne_nil (t : GoString) (r : List GoString) (ht : t ≠ []) :
    joinSpace (t :: r) ≠ [] := by
  intro h
  have := joinSpace_head? t r ht
  rw [h] at this
  cases t with
  | nil => exact ht rfl
  | cons c cs => cases this

theorem joinSpace_getLast? (ts : List GoString) (h : ∀ t ∈ ts, t ≠ []) (c : Char)
    (hc : (joinSpace ts).getLast? = some c) : ∃ t ∈ ts, c ∈ t := by
  induction ts with
  | nil => simp [joinSpace, List.intercalate] at hc
  | cons t r ih =>
    cases r with
    | nil =>
      rw [joinSpace_single] at hc
      exact ⟨t, List.mem_cons_self _ _, List.mem_of_getLast?_eq_some hc⟩
    | cons t2 r2 =>
      have hne : joinSpace (t2 :: r2) ≠ [] :=
        joinSpace_ne_nil t2 r2 (h t2 (by simp))
      have e : joinSpace (t :: t2 :: r2) = (t ++ [' ']) ++ joinSpace (t2 :: r2) := by
        rw [joinSpace_cons_cons]
        simp
      rw [e, List.getLast?_append_of_ne_nil _ hne] at hc
      obtain ⟨u, hu, hcu⟩ := ih (fun u hu => h u (List.mem_cons_of_mem _ hu)) hc
      exact ⟨u, List.mem_cons_of_mem _ hu, hcu⟩

theorem rawLines_single (line : GoString) (hne : line ≠ []) (hnl : '\n' ∉ line) :
    rawLines line = [line] ∧ rawLines (line ++ ['\n']) = [line] := by
  have h1 : splitP (fun c => c == '\n') line = [line] := by
    apply splitP_of_forall_not
    intro c hc
    have : c ≠ '\n' := fun h => hnl (h ▸ hc)
    simpa using this
  have h3 : splitP (fun c => c == '\n') (line ++ ['\n']) = [line, []] := by
    rw [splitP_append_sep _ line '\n' [] (by simp), h1]
    rfl
  constructor
  · unfold rawLines
    simp [h1, hne]
  · unfold rawLines
    simp [h3]

theorem dropCR_of_not_mem (line : GoString) (hcr : '\r' ∉ line) : dropCR line = line := by
  unfold dropCR
  have : line.getLast? ≠ some '\r' := fun h => hcr (List.mem_of_getLast?_eq_some h)
  simp [this]

theorem scanLines_of_fit (src : GoString)
    (hfit : ∀ raw ∈ rawLines src, fitsBuffer raw = true) : scanLines src = textLines src := by
  unfold scanLines textLines
  rw [List.takeWhile_eq_self_iff.2 hfit]

theorem byteLen_append (a b : GoString) : byteLen (a ++ b) = byteLen a + byteLen b := by
  simp [byteLen]

theorem byteLen_replicate_a (n : Nat) : byteLen (List.replicate n 'a') = n := by
  induction n with
  | zero => rfl
  | succ n ih =>
    rw [List.replicate_succ]
    have h : byteLen ('a' :: List.replicate n 'a') = 1 + byteLen (List.replicate n 'a') := by
      simp [byteLen]
      decide
    rw [h, ih]
    omega

/-! ## loadJobs -/

theorem loadJobs_ok_iff (src : GoString) (js : List (List GoString)) :
    loadJobs (some src) = .ok js ↔
      (∀ l ∈ scanLines src, isJobLine l = true → ' ' ∈ trimSpace l) ∧
      js = ((scanLines src).filter isJobLine).map (fun l => split (trimSpace l) ' ') := by
  unfold loadJobs
  simp only [loadJobsLoop_ok_iff, two_le_split_length_iff, List.nil_append]

theorem split_joinSpace_fields (l : GoString) (hl : isJobLine l = true)
    (h : trimSpace l = joinSpace (fields l)) : split (trimSpace l) ' ' = fields l := by
  have hne : fields l ≠ [] := by
    intro h0
    rw [h0] at h
    have := ((isJobLine_iff l).1 hl).1
    exact this (by simpa [joinSpace, List.intercalate] using h)
  rw [h]
  unfold split joinSpace
  apply splitP_intercalate _ ' ' (by simp) _ hne
  intro t ht c hc
  have hsp := (mem_fields_not_space l t ht).2 c hc
  have : c ≠ ' ' := by
    intro hc2
    rw [hc2] at hsp
    revert hsp
    decide
  simpa using this

theorem two_le_fields_of_space_mem (l : GoString) (h : ' ' ∈ trimSpace l) :
    2 ≤ (fields l).length := by
  obtain ⟨a, b, hab⟩ := List.append_of_mem h
  have hsp : isSpace ' ' = true := by decide
  have hf : fields l = fields a ++ fields b := by
    rw [← fields_trimSpace, hab, fields_append_sep a ' ' b hsp]
  have ha : fields a ≠ [] := by
    apply fields_ne_nil
    cases a with
    | nil =>
      have := trimSpace_head l ' ' (by rw [hab]; rfl)
      rw [hsp] at this
      cases this
    | cons c t =>
      exact ⟨c, List.mem_cons_self _ _, trimSpace_head l c (by rw [hab]; rfl)⟩
  have hb : fields b ≠ [] := by
    apply fields_ne_nil
    rcases List.eq_nil_or_concat b with hb0 | ⟨b2, c, hb2⟩
    · have := trimSpace_last l ' ' (by rw [hab, hb0]; simp)
      rw [hsp] at this
      cases this
    · refine ⟨c, by simp [hb2], trimSpace_last l c ?_⟩
      have e : a ++ ' ' :: b2.concat c = (a ++ ' ' :: b2) ++ [c] := by simp
      rw [hab, hb2, e]
      exact List.getLast?_concat _
  have h1 := List.length_pos.2 ha
  have h2 := List.length_pos.2 hb
  rw [hf, List.length_append]
  omega

theorem loadJobs_overlong (line : GoString) (hne : line ≠ []) (hnl : '\n' ∉ line)
    (hlong : maxScanTokenSize ≤ byteLen line) : loadJobs (some line) = .ok [] := by
  have hfit : fitsBuffer line = false := by
    unfold fitsBuffer
    simpa using hlong
  show loadJobsLoop (scanLines line) [] = .ok []
  unfold scanLines
  rw [(rawLines_single line hne hnl).1]
  simp [hfit, loadJobsLoop]

theorem joinSpace_line (first : GoString) (rest : List GoString)
    (hwf : ∀ t ∈ first :: rest, t ≠ [] ∧ ∀ c ∈ t, isSpace c = false)
    (hfirst : first.head? ≠ some '#') :
    joinSpace (first :: rest) ≠ [] ∧ '\n' ∉ joinSpace (first :: rest) ∧
      '\r' ∉ joinSpace (first :: rest) ∧
      isJobLine (joinSpace (first :: rest)) = true ∧
      fields (joinSpace (first :: rest)) = first :: rest := by
  have hrne : first ≠ [] := (hwf first (by simp)).1
  have hmem : ∀ c ∈ joinSpace (first :: rest), c = ' ' ∨ isSpace c = false := by
    intro c hc
    rcases mem_joinSpace _ c hc with h | ⟨t, ht, hct⟩
    · exact Or.inl h
    · exact Or.inr ((hwf t ht).2 c hct)
  have hne : joinSpace (first :: rest) ≠ [] := joinSpace_ne_nil _ _ hrne
  have hnl : '\n' ∉ joinSpace (first :: rest) := by
    intro h
    rcases hmem _ h with h2 | h2
    · revert h2
      decide
    · revert h2
      decide
  have hcr : '\r' ∉ joinSpace (first :: rest) := by
    intro h
    rcases hmem _ h with h2 | h2
    · revert h2
      decide
    · revert h2
      decide
  have htrim : trimSpace (joinSpace (first :: rest)) = joinSpace (first :: rest) := by
    apply trimSpace_eq_self
    · intro c hc
      rw [joinSpace_head? _ _ hrne] at hc
      exact (hwf first (by simp)).2 c (List.mem_of_mem_head? hc)
    · intro c hc
      obtain ⟨t, ht, hct⟩ := joinSpace_getLast? _ (fun t ht => (hwf t ht).1) c hc
      exact (hwf t ht).2 c hct
  have hjob : isJobLine (joinSpace (first :: rest)) = true := by
    rw [isJobLine_iff, htrim, joinSpace_head? _ _ hrne]
    exact ⟨hne, hfirst⟩
  refine ⟨hne, hnl, hcr, hjob, ?_⟩
  unfold fields joinSpace
  rw [splitP_intercalate isSpace ' ' (by decide) _ (by simp) (fun t ht => (hwf t ht).2)]
  rw [List.filter_eq_self]
  intro t ht
  have := (hwf t ht).1
  cases t with
  | nil => exact absurd rfl this
  | cons c cs => rfl

theorem replicate_a_wf (n : Nat) (hn : 0 < n) :
    List.replicate n 'a' ≠ [] ∧ ∀ c ∈ List.replicate n 'a', isSpace c = false := by
  constructor
  · intro h0
    have := congrArg List.length h0
    simp at this
    omega
  · intro c hc
    rw [(List.mem_replicate.1 hc).2]
    decide

/-- A line of two tokens whose second token has `n` bytes, for `n` of 64 KiB or
more: the scanner does not deliver it and `loadJobs` returns no job, though it
is a kept line with two white-space-separated tokens. -/
theorem overlong_job (n : Nat) (hn : maxScanTokenSize ≤ n) :
    ((∀ t ∈ ["/r".toList, List.replicate n 'a'], t ≠ [] ∧ ∀ c ∈ t, isSpace c = false) ∧
        "/r".toList.head? ≠ some '#') ∧
      loadJobs (some (joinSpace ["/r".toList, List.replicate n 'a'])) = .ok [] ∧
      ((textLines (joinSpace ["/r".toList, List.replicate n 'a'])).filter isJobLine).map fields
        = [["/r".toList, List.replicate n 'a']] ∧
      (∀ l ∈ textLines (joinSpace ["/r".toList, List.replicate n 'a']),
        isJobLine l = true → 2 ≤ (fields l).length) := by
  have hpos : 0 < n := by
    have : 0 < maxScanTokenSize := by decide
    omega
  have hwf : ∀ t ∈ ["/r".toList, List.replicate n 'a'],
      t ≠ [] ∧ ∀ c ∈ t, isSpace c = false := by
    intro t ht
    simp only [List.mem_cons, List.mem_singleton, List.not_mem_nil, or_false] at ht
    rcases ht with rfl | rfl
    · decide
    · exact replicate_a_wf n hpos
  have hfirst : "/r".toList.head? ≠ some '#' := by decide
  obtain ⟨hne, hnl, hcr, hjob, hfields⟩ := joinSpace_line _ _ hwf hfirst
  have hjoin : joinSpace ["/r".toList, List.replicate n 'a']
      = "/r ".toList ++ List.replicate n 'a' := by
    rw [joinSpace_cons_cons, joinSpace_single]
    rfl
  have hlong : maxScanTokenSize ≤ byteLen (joinSpace ["/r".toList, List.replicate n 'a']) := by
    rw [hjoin, byteLen_append, byteLen_replicate_a]
    omega
  have htext : textLines (joinSpace ["/r".toList, List.replicate n 'a'])
      = [joinSpace ["/r".toList, List.replicate n 'a']] := by
    unfold textLines
    rw [(rawLines_single _ hne hnl).1, List.map_singleton, dropCR_of_not_mem _ hcr]
  refine ⟨⟨hwf, hfirst⟩, loadJobs_overlong _ hne hnl hlong, ?_, ?_⟩
  · rw [htext, List.filter_singleton, hjob]
    show [fields (joinSpace ["/r".toList, List.replicate n 'a'])] = _
    rw [hfields]
  · intro l hl _
    rw [htext, List.mem_singleton] at hl
    rw [hl, hfields]
    exact Nat.le_refl 2

/-- A line of one token of `n` bytes, for `n` of 64 KiB or more: it is a kept
line with fewer than two tokens, the scanner does not deliver it and
`loadJobs` returns without a panic. -/
theorem overlong_single_token (n : Nat) (hn : maxScanTokenSize ≤ n) :
    (∃ l ∈ textLines (List.replicate n 'a'), isJobLine l = true ∧ (fields l).length < 2) ∧
      loadJobs (some (List.replicate n 'a')) = .ok [] := by
  have hpos : 0 < n := by
    have : 0 < maxScanTokenSize := by decide
    omega
  have hwf : ∀ t ∈ [List.replicate n 'a'], t ≠ [] ∧ ∀ c ∈ t, isSpace c = false := by
    intro t ht
    rw [List.mem_singleton] at ht
    rw [ht]
    exact replicate_a_wf n hpos
  have hfirst : (List.replicate n 'a').head? ≠ some '#' := by
    intro h
    have := List.mem_of_mem_head? h
    have := (List.mem_replicate.1 this).2
    revert this
    decide
  obtain ⟨hne, hnl, hcr, hjob, hfields⟩ := joinSpace_line _ _ hwf hfirst
  rw [joinSpace_single] at hne hnl hcr hjob hfields
  have htext : textLines (List.replicate n 'a') = [List.replicate n 'a'] := by
    unfold textLines
    rw [(rawLines_single _ hne hnl).1, List.map_singleton, dropCR_of_not_mem _ hcr]
  refine ⟨⟨List.replicate n 'a', ?_, hjob, ?_⟩, loadJobs_overlong _ hne hnl ?_⟩
  · rw [htext]
    exact List.mem_singleton.2 rfl
  · rw [hfields]
    exact Nat.lt_succ_self 1
  · rw [byteLen_replicate_a]
    exact hn

/-- C4, as stated, fails: with two spaces after the route, the job `loadJobs`
returns has the empty string as its second element, not the line's second
white-space-separated token; and for a kept line of 64 KiB or more `loadJobs`
returns no job at all. -/
theorem C4_counterexample :
    (loadJobs (some "r  /bin/echo hi".toList)
          = .ok [["r".toList, [], "/bin/echo".toList, "hi".toList]] ∧
        ((textLines "r  /bin/echo hi".toList).filter isJobLine).map fields
          = [["r".toList, "/bin/echo".toList, "hi".toList]]) ∧
      (loadJobs (some (joinSpace ["/r".toList, List.replicate 65536 'a'])) = .ok [] ∧
        ((textLines (joinSpace ["/r".toList, List.replicate 65536 'a'])).filter
            isJobLine).map fields
          = [["/r".toList, List.replicate 65536 'a']]) :=
  ⟨by decide, (overlong_job 65536 (Nat.le_refl _)).2.1,
    (overlong_job 65536 (Nat.le_refl _)).2.2.1⟩

/-- C4, amended: for a source whose lines all fit the scanner's buffer (fewer
than 64 KiB each), when `loadJobs` returns, its result is, in source order,
the list of the pieces of each kept line (trimmed, not empty, not starting with
`#`) cut at every single space character; for every kept line whose tokens are
separated by single spaces these pieces are the line's white-space-separated
tokens, in order. -/
theorem C4_loadJobs_pieces (src : GoString) (js : List (List GoString))
    (hfit : ∀ raw ∈ rawLines src, fitsBuffer raw = true)
    (h : loadJobs (some src) = .ok js) :
    js = ((textLines src).filter isJobLine).map (fun l => split (trimSpace l) ' ') ∧
      ∀ l ∈ textLines src, isJobLine l = true → trimSpace l = joinSpace (fields l) →
        split (trimSpace l) ' ' = fields l := by
  refine ⟨?_, fun l _ hl hsep => split_joinSpace_fields l hl hsep⟩
  rw [← scanLines_of_fit src hfit]
  exact ((loadJobs_ok_iff src js).1 h).2

/-- C4, amended, on a source with a comment, a blank line and a padded line. -/
theorem C4_loadJobs_pieces_witness :
    (∀ raw ∈ rawLines "e /bin/echo hello\n# c\n\n x y \n".toList, fitsBuffer raw = true) ∧
      loadJobs (some "e /bin/echo hello\n# c\n\n x y \n".toList)
        = .ok [["e".toList, "/bin/echo".toList, "hello".toList], ["x".toList, "y".toList]] ∧
      [["e".toList, "/bin/echo".toList, "hello".toList], ["x".toList, "y".toList]]
        = ((textLines "e /bin/echo hello\n# c\n\n x y \n".toList).filter isJobLine).map
            (fun l => split (trimSpace l) ' ') ∧
      ∀ l ∈ textLines "e /bin/echo hello\n# c\n\n x y \n".toList, isJobLine l = true →
        trimSpace l = joinSpace (fields l) → split (trimSpace l) ' ' = fields l :=
  ⟨by decide, by decide,
    C4_loadJobs_pieces "e /bin/echo hello\n# c\n\n x y \n".toList _ (by decide) (by decide)⟩

/-- C5, as stated, fails: a line with two spaces after its route is loaded as
a job whose executable (element 1) is the empty string; and on a one-token
line of 64 KiB or more `loadJobs` does not panic but returns no job. -/
theorem C5_counterexample :
    (loadJobs (some "/run  ls".toList) = .ok [["/run".toList, [], "ls".toList]] ∧
        ["/run".toList, [], "ls".toList][1]? = some []) ∧
      ((∃ l ∈ textLines (List.replicate 65536 'a'),
          isJobLine l = true ∧ (fields l).length < 2) ∧
        loadJobs (some (List.replicate 65536 'a')) = .ok []) :=
  ⟨by decide, overlong_single_token 65536 (Nat.le_refl _)⟩

/-- C5, amended: for a source whose lines all fit the scanner's buffer,
`loadJobs` fails when some kept line has fewer than two white-space-separated
tokens; and whenever `loadJobs` returns, every job has at least two elements
and a non-empty route (element 0). -/
theorem C5_loadJobs_guard (src : GoString) :
    ((∀ raw ∈ rawLines src, fitsBuffer raw = true) →
        (∃ l ∈ textLines src, isJobLine l = true ∧ (fields l).length < 2) →
        ∃ e, loadJobs (some src) = .error e) ∧
      ∀ js, loadJobs (some src) = .ok js →
        ∀ j ∈ js, 2 ≤ j.length ∧ j.head? ≠ none ∧ j.head? ≠ some [] := by
  constructor
  · rintro hfit ⟨l, hl, hjl, hlen⟩
    rw [← scanLines_of_fit src hfit] at hl
    apply loadJobsLoop_error_of
    refine ⟨l, hl, hjl, ?_⟩
    by_contra hcon
    have h2 : 2 ≤ (split (trimSpace l) ' ').length := by omega
    have := two_le_fields_of_space_mem l ((two_le_split_length_iff _ _).1 h2)
    omega
  · intro js hjs j hj
    obtain ⟨hall, hjs2⟩ := (loadJobs_ok_iff src js).1 hjs
    rw [hjs2, List.mem_map] at hj
    obtain ⟨l, hl, rfl⟩ := hj
    rw [List.mem_filter] at hl
    have h2 := (two_le_split_length_iff (trimSpace l) ' ').2 (hall l hl.1 hl.2)
    refine ⟨h2, ?_⟩
    obtain ⟨hne, _⟩ := (isJobLine_iff l).1 hl.2
    cases ht : trimSpace l with
    | nil => exact absurd ht hne
    | cons c t =>
      have hc := trimSpace_head l c (by rw [ht]; rfl)
      have hc2 : (c == ' ') = false := by
        cases hcc : (c == ' ')
        · rfl
        · have : c = ' ' := by simpa using hcc
          rw [this] at hc
          revert hc
          decide
      have hne2 := splitP_ne_nil (fun c => c == ' ') t
      cases hsp : splitP (fun c => c == ' ') t with
      | nil => exact absurd hsp hne2
      | cons x xs => simp [split, splitP_nil, splitP_cons, hc2, hsp]

/-- C5, amended, on a source with a one-token line and on a one-job source. -/
theorem C5_loadJobs_guard_witness :
    (∃ e, loadJobs (some "# jobs\n/only\n".toList) = .error e) ∧
      ∀ j ∈ [["/a".toList, "ls".toList]], 2 ≤ j.length ∧ j.head? ≠ none ∧ j.head? ≠ some [] :=
  ⟨(C5_loadJobs_guard "# jobs\n/only\n".toList).1 (by decide)
      ⟨"/only".toList, by decide, by decide, by decide⟩,
   (C5_loadJobs_guard "/a ls".toList).2 _ (by decide)⟩

/-- C7, as stated, fails: a well-formed job whose line has 64 KiB or more is
not delivered by the scanner, and `loadJobs` returns no job at all. -/
theorem C7_counterexample :
    (∀ t ∈ ["/r".toList, List.replicate 65536 'a'],
        t ≠ [] ∧ ∀ c ∈ t, isSpace c = false) ∧
      "/r".toList.head? ≠ some '#' ∧
      loadJobs (some (joinSpace ["/r".toList, List.replicate 65536 'a'])) = .ok [] :=
  ⟨(overlong_job 65536 (Nat.le_refl _)).1.1, (overlong_job 65536 (Nat.le_refl _)).1.2,
    (overlong_job 65536 (Nat.le_refl _)).2.1⟩

/-- C7, amended: a job whose route, command and arguments are non-empty
strings without white space, the route not starting with `#`, written on one
line with single spaces between its tokens (with or without a final newline),
the line having fewer than 64 KiB, is loaded by `loadJobs` as exactly that one
job, tokens in the original order. -/
theorem C7_loadJobs_roundtrip (route command : GoString) (args : List GoString)
    (hwf : ∀ t ∈ route :: command :: args, t ≠ [] ∧ ∀ c ∈ t, isSpace c = false)
    (hroute : route.head? ≠ some '#')
    (hfit : byteLen (joinSpace (route :: command :: args)) < maxScanTokenSize) :
    loadJobs (some (joinSpace (route :: command :: args)))
        = .ok [route :: command :: args] ∧
      loadJobs (some (joinSpace (route :: command :: args) ++ ['\n']))
        = .ok [route :: command :: args] := by
  have hrne : route ≠ [] := (hwf route (by simp)).1
  have hmem : ∀ c ∈ joinSpace (route :: command :: args), c = ' ' ∨ isSpace c = false := by
    intro c hc
    rcases mem_joinSpace _ c hc with h | ⟨t, ht, hct⟩
    · exact Or.inl h
    · exact Or.inr ((hwf t ht).2 c hct)
  have hne : joinSpace (route :: command :: args) ≠ [] := joinSpace_ne_nil _ _ hrne
  have hnl : '\n' ∉ joinSpace (route :: command :: args) := by
    intro h
    rcases hmem _ h with h2 | h2
    · revert h2
      decide
    · revert h2
      decide
  have hcr : '\r' ∉ joinSpace (route :: command :: args) := by
    intro h
    rcases hmem _ h with h2 | h2
    · revert h2
      decide
    · revert h2
      decide
  have htrim : trimSpace (joinSpace (route :: command :: args))
      = joinSpace (route :: command :: args) := by
    apply trimSpace_eq_self
    · intro c hc
      rw [joinSpace_head? _ _ hrne] at hc
      exact (hwf route (by simp)).2 c (List.mem_of_mem_head? hc)
    · intro c hc
      obtain ⟨t, ht, hct⟩ := joinSpace_getLast? _ (fun t ht => (hwf t ht).1) c hc
      exact (hwf t ht).2 c hct
  have hjob : isJobLine (joinSpace (route :: command :: args)) = true := by
    rw [isJobLine_iff, htrim, joinSpace_head? _ _ hrne]
    exact ⟨hne, hroute⟩
  have hsplit : split (joinSpace (route :: command :: args)) ' '
      = route :: command :: args := by
    unfold split joinSpace
    apply splitP_intercalate _ ' ' (by simp) _ (by simp)
    intro t ht c hc
    have hsp := (hwf t ht).2 c hc
    have : c ≠ ' ' := by
      intro hc2
      rw [hc2] at hsp
      revert hsp
      decide
    simpa using this
  obtain ⟨hr1, hr2⟩ := rawLines_single _ hne hnl
  have hfb : fitsBuffer (joinSpace (route :: command :: args)) = true := by
    unfold fitsBuffer
    simpa using hfit
  have hs1 : scanLines (joinSpace (route :: command :: args))
      = [joinSpace (route :: command :: args)] := by
    unfold scanLines
    rw [hr1]
    simp [hfb, dropCR_of_not_mem _ hcr]
  have hs2 : scanLines (joinSpace (route :: command :: args) ++ ['\n'])
      = [joinSpace (route :: command :: args)] := by
    unfold scanLines
    rw [hr2]
    simp [hfb, dropCR_of_not_mem _ hcr]
  have hloop : loadJobsLoop [joinSpace (route :: command :: args)] []
      = .ok [route :: command :: args] := by
    rw [loadJobsLoop_cons, htrim, hsplit]
    simp [hjob, loadJobsLoop]
  unfold loadJobs
  simp only [hs1, hs2, hloop, and_self]

/-- C7, amended, on the job `/echo-hello /bin/echo hello #1`. -/
theorem C7_loadJobs_roundtrip_witness :
    loadJobs (some (joinSpace ["/echo-hello".toList, "/bin/echo".toList, "hello".toList, "#1".toList]))
        = .ok [["/echo-hello".toList, "/bin/echo".toList, "hello".toList, "#1".toList]] ∧
      loadJobs (some (joinSpace ["/echo-hello".toList, "/bin/echo".toList, "hello".toList,
          "#1".toList] ++ ['\n']))
        = .ok [["/echo-hello".toList, "/bin/echo".toList, "hello".toList, "#1".toList]] :=
  C7_loadJobs_roundtrip "/echo-hello".toList "/bin/echo".toList ["hello".toList, "#1".toList]
    (by decide) (by decide) (by decide)

/-! ## loadTokens -/

theorem cut_found_iff (s : GoString) (sep : Char) : (cut s sep).2.2 = true ↔ sep ∈ s := by
  unfold cut
  cases h : s.dropWhile (fun c => c != sep) with
  | nil =>
    rw [List.dropWhile_eq_nil_iff] at h
    simp only [Bool.false_eq_true, false_iff]
    intro hmem
    have := h sep hmem
    simp at this
  | cons d rest =>
    simp only [true_iff]
    by_contra hcon
    have : s.dropWhile (fun c => c != sep) = [] := by
      rw [List.dropWhile_eq_nil_iff]
      intro x hx
      have : x ≠ sep := fun e => hcon (e ▸ hx)
      simpa using this
    rw [this] at h
    cases h

theorem cut_append (a b : GoString) (sep : Char) (ha : sep ∉ a) :
    cut (a ++ sep :: b) sep = (a, b, true) := by
  have hall : ∀ x ∈ a, (x != sep) = true := by
    intro x hx
    have : x ≠ sep := fun e => ha (e ▸ hx)
    simpa using this
  have h1 : (a ++ sep :: b).dropWhile (fun c => c != sep) = sep :: b := by
    rw [List.dropWhile_append_of_pos hall]
    simp [List.dropWhile]
  have h2 : (a ++ sep :: b).takeWhile (fun c => c != sep) = a := by
    rw [List.takeWhile_append_of_pos hall]
    simp [List.takeWhile]
  unfold cut
  rw [h1, h2]

theorem find?_filter_ne (m : GoMap) (k k2 : GoString) (h : k2 ≠ k) :
    (m.filter (fun e => e.1 != k)).find? (fun e => e.1 == k2)
      = m.find? (fun e => e.1 == k2) := by
  induction m with
  | nil => rfl
  | cons e r ih =>
    by_cases he : e.1 = k
    · have h1 : (e.1 != k) = false := by simp [he]
      have h2 : (e.1 == k2) = false := by
        have : ¬ e.1 = k2 := fun e2 => h (e2.symm.trans he)
        simpa using this
      rw [List.filter_cons, h1, List.find?_cons, h2]
      simpa using ih
    · have h1 : (e.1 != k) = true := by simpa using he
      rw [List.filter_cons, h1]
      simp only [if_true, List.find?_cons]
      rw [ih]

theorem mapGet_mapSet (m : GoMap) (k v k2 : GoString) :
    mapGet (mapSet m k v) k2 = if k2 = k then some v else mapGet m k2 := by
  unfold mapGet mapSet
  by_cases h : k2 = k
  · subst h
    simp
  · have e1 : ((k, v).1 == k2) = false := by
      have : ¬ k = k2 := fun e => h e.symm
      simpa using this
    rw [List.find?_cons, e1, find?_filter_ne m k k2 h]
    simp [h]

theorem loadTokensLoop_cons (pair : GoString) (rest : List GoString) (m : GoMap) :
    loadTokensLoop (pair :: rest) m =
      if ' ' ∈ pair then
        loadTokensLoop rest (mapSet m (cut pair ' ').2.1 (cut pair ' ').1)
      else .error (.invalidTokenPair pair) := by
  rw [loadTokensLoop]
  have hiff := cut_found_iff pair ' '
  rcases hc : cut pair ' ' with ⟨user, tkn, found⟩
  rw [hc] at hiff
  cases found with
  | true =>
    have : ' ' ∈ pair := hiff.1 rfl
    simp [this]
  | false =>
    have : ' ' ∉ pair := fun h => by
      have := hiff.2 h
      cases this
    simp [this]

theorem loadTokensLoop_ok_iff (pairs : List GoString) (m store : GoMap) :
    loadTokensLoop pairs m = .ok store ↔
      (∀ p ∈ pairs, ' ' ∈ p) ∧
      store = pairs.foldl (fun acc p => mapSet acc (cut p ' ').2.1 (cut p ' ').1) m := by
  induction pairs generalizing m with
  | nil =>
    simp [loadTokensLoop]
    exact eq_comm
  | cons p rest ih =>
    rw [loadTokensLoop_cons]
    by_cases hp : ' ' ∈ p
    · simp [hp, ih]
    · simp [hp]

theorem foldl_mapSet_ne_nil (pairs : List GoString) (m : GoMap) (h : pairs ≠ [] ∨ m ≠ []) :
    pairs.foldl (fun acc p => mapSet acc (cut p ' ').2.1 (cut p ' ').1) m ≠ [] := by
  induction pairs generalizing m with
  | nil =>
    rcases h with h | h
    · exact absurd rfl h
    · exact h
  | cons p rest ih =>
    rw [List.foldl_cons]
    apply ih
    right
    simp [mapSet]

theorem loadTokens_ok_iff (raw : GoString) (store : GoMap) :
    loadTokens raw = .ok store ↔
      (∀ p ∈ split raw '|', ' ' ∈ p) ∧
      store = (split raw '|').foldl
        (fun acc p => mapSet acc (cut p ' ').2.1 (cut p ' ').1) [] := by
  unfold loadTokens
  cases hloop : loadTokensLoop (split raw '|') [] with
  | error e =>
    simp only [reduceCtorEq, false_iff]
    rintro ⟨hall, hst⟩
    have := (loadTokensLoop_ok_iff (split raw '|') [] _).2 ⟨hall, rfl⟩
    rw [hloop] at this
    cases this
  | ok tokens =>
    obtain ⟨hall, htok⟩ := (loadTokensLoop_ok_iff _ _ _).1 hloop
    have hne : tokens ≠ [] := by
      rw [htok]
      exact foldl_mapSet_ne_nil _ _ (Or.inl (splitP_ne_nil _ _))
    have hlen : ¬ tokens.length = 0 := fun h => hne (List.length_eq_zero.1 h)
    simp only [hlen, if_false, Except.ok.injEq]
    constructor
    · intro h
      exact ⟨hall, h ▸ htok⟩
    · rintro ⟨_, h⟩
      rw [h, htok]

theorem mapGet_foldl_entries (entries : List (GoString × GoString)) (m : GoMap)
    (k : GoString) :
    mapGet (entries.foldl (fun acc e => mapSet acc e.2 e.1) m) k =
      match entries.reverse.find? (fun e => e.2 == k) with
      | some e => some e.1
      | none => mapGet m k := by
  induction entries generalizing m with
  | nil => rfl
  | cons e r ih =>
    rw [List.foldl_cons, ih, List.reverse_cons, List.find?_append]
    cases hf : r.reverse.find? (fun e => e.2 == k) with
    | some e2 => rfl
    | none =>
      rw [mapGet_mapSet]
      by_cases hk : k = e.2
      · simp [hk]
      · have : ¬ e.2 = k := fun h => hk h.symm
        simp [hk, this]

theorem foldl_written_entries (entries : List (GoString × GoString))
    (h : ∀ e ∈ entries, ' ' ∉ e.1) (m : GoMap) :
    (entries.map (fun e => e.1 ++ ' ' :: e.2)).foldl
        (fun acc p => mapSet acc (cut p ' ').2.1 (cut p ' ').1) m
      = entries.foldl (fun acc e => mapSet acc e.2 e.1) m := by
  induction entries generalizing m with
  | nil => rfl
  | cons e r ih =>
    rw [List.map_cons, List.foldl_cons, List.foldl_cons,
      cut_append e.1 e.2 ' ' (h e (List.mem_cons_self _ _))]
    exact ih (fun x hx => h x (List.mem_cons_of_mem _ hx)) _

theorem split_writeTokens (entries : List (GoString × GoString)) (hne : entries ≠ [])
    (h : ∀ e ∈ entries, '|' ∉ e.1 ∧ '|' ∉ e.2) :
    split (writeTokens entries) '|' = entries.map (fun e => e.1 ++ ' ' :: e.2) := by
  unfold split writeTokens
  apply splitP_intercalate _ '|' (by simp) _ (by simpa using hne)
  intro t ht c hc
  rw [List.mem_map] at ht
  obtain ⟨e, he, rfl⟩ := ht
  have hcne : c ≠ '|' := by
    intro hc2
    rw [hc2, List.mem_append, List.mem_cons] at hc
    rcases hc with hc | hc | hc
    · exact (h e he).1 hc
    · revert hc
      decide
    · exact (h e he).2 hc
  simpa using hcne

/-- C8: for the credential string written from a non-empty list of entries
`identity token` separated by `|` (identities without a space, no `|` inside an
entry), `loadTokens` returns a store in which every token maps to the identity
of the last entry carrying it and nothing else is a key; each entry is cut at
its first space, so a token may itself contain spaces.  For `alice token123`
the store is the single binding of `token123` to `alice`. -/
theorem C8_loadTokens_store (entries : List (GoString × GoString)) (hne : entries ≠ [])
    (hwf : ∀ e ∈ entries, ' ' ∉ e.1 ∧ '|' ∉ e.1 ∧ '|' ∉ e.2) :
    (∃ store, loadTokens (writeTokens entries) = .ok store ∧
        (∀ k, mapGet store k
          = (entries.reverse.find? (fun e => e.2 == k)).map (fun e => e.1)) ∧
        (∀ k, (mapGet store k).isSome = true ↔ k ∈ entries.map (fun e => e.2))) ∧
      loadTokens "alice token123".toList = .ok [("token123".toList, "alice".toList)] := by
  refine ⟨?_, by decide⟩
  have hsplit := split_writeTokens entries hne (fun e he => ⟨(hwf e he).2.1, (hwf e he).2.2⟩)
  have hget : ∀ k, mapGet (entries.foldl (fun acc e => mapSet acc e.2 e.1) []) k
      = (entries.reverse.find? (fun e => e.2 == k)).map (fun e => e.1) := by
    intro k
    rw [mapGet_foldl_entries]
    cases entries.reverse.find? (fun e => e.2 == k) <;> rfl
  refine ⟨entries.foldl (fun acc e => mapSet acc e.2 e.1) [], ?_, hget, ?_⟩
  · rw [loadTokens_ok_iff, hsplit]
    refine ⟨?_, (foldl_written_entries entries (fun e he => (hwf e he).1) []).symm⟩
    intro p hp
    rw [List.mem_map] at hp
    obtain ⟨e, _, rfl⟩ := hp
    simp
  · intro k
    rw [hget k, List.mem_map]
    cases hfind : entries.reverse.find? (fun e => e.2 == k) with
    | none =>
      rw [List.find?_eq_none] at hfind
      simp only [Option.map_none', Option.isSome_none, Bool.false_eq_true, false_iff]
      rintro ⟨e, he, hk⟩
      exact hfind e (List.mem_reverse.2 he) (by simpa using hk)
    | some e =>
      simp only [Option.map_some', Option.isSome_some, true_iff]
      have h1 := List.mem_reverse.1 (List.mem_of_find?_eq_some hfind)
      have h2 := List.find?_some hfind
      exact ⟨e, h1, by simpa using h2⟩

/-- C8 on three entries, two of them carrying the same token. -/
theorem C8_loadTokens_store_witness :
    (∃ store, loadTokens (writeTokens [("alice".toList, "t1".toList),
          ("bob".toList, "t 2".toList), ("carol".toList, "t1".toList)]) = .ok store ∧
        (∀ k, mapGet store k
          = (([("alice".toList, "t1".toList), ("bob".toList, "t 2".toList),
                ("carol".toList, "t1".toList)] : List (GoString × GoString)).reverse.find?
              (fun e => e.2 == k)).map (fun e => e.1)) ∧
        (∀ k, (mapGet store k).isSome = true ↔
          k ∈ ([("alice".toList, "t1".toList), ("bob".toList, "t 2".toList),
                ("carol".toList, "t1".toList)] : List (GoString × GoString)).map
              (fun e => e.2))) ∧
      loadTokens "alice token123".toList = .ok [("token123".toList, "alice".toList)] :=
  C8_loadTokens_store [("alice".toList, "t1".toList), ("bob".toList, "t 2".toList),
    ("carol".toList, "t1".toList)] (by decide) (by decide)

/-- C9, as stated, fails: an entry with an empty identity, and an entry with
an empty token, are malformed, yet `loadTokens` returns a store for them. -/
theorem C9_counterexample :
    entryWellFormed " t".toList = false ∧
      loadTokens " t".toList = .ok [("t".toList, [])] ∧
      entryWellFormed "alice ".toList = false ∧
      loadTokens "alice ".toList = .ok [([], "alice".toList)] := by
  decide

/-- C9, amended: `loadTokens` fails exactly when some `|`-separated entry
contains no space character, which includes the empty string and every empty
entry; an entry containing a space is accepted, also with an empty identity or
an empty token; and a store `loadTokens` returns is never empty. -/
theorem C9_loadTokens_fails_or_nonempty (raw : GoString) :
    ((∃ e, loadTokens raw = .error e) ↔ ∃ p ∈ split raw '|', ' ' ∉ p) ∧
      ([] ∈ split raw '|' → ∃ e, loadTokens raw = .error e) ∧
      (∃ e, loadTokens [] = .error e) ∧
      (∀ store, loadTokens raw = .ok store → store ≠ []) ∧
      ((∃ e, loadTokens raw = .error e) ∨ ∃ store, loadTokens raw = .ok store ∧ store ≠ []) := by
  have hne : ∀ store, loadTokens raw = .ok store → store ≠ [] := by
    intro store h
    rw [((loadTokens_ok_iff raw store).1 h).2]
    exact foldl_mapSet_ne_nil _ _ (Or.inl (splitP_ne_nil _ _))
  have hiff : (∃ e, loadTokens raw = .error e) ↔ ∃ p ∈ split raw '|', ' ' ∉ p := by
    constructor
    · rintro ⟨e, he⟩
      by_contra hcon
      have hall : ∀ p ∈ split raw '|', ' ' ∈ p := by
        intro p hp
        by_contra hp2
        exact hcon ⟨p, hp, hp2⟩
      have := (loadTokens_ok_iff raw _).2 ⟨hall, rfl⟩
      rw [he] at this
      cases this
    · rintro ⟨p, hp, hp2⟩
      cases hres : loadTokens raw with
      | error e => exact ⟨e, rfl⟩
      | ok store => exact absurd (((loadTokens_ok_iff raw store).1 hres).1 p hp) hp2
  refine ⟨hiff, fun h => hiff.2 ⟨[], h, by simp⟩, ⟨.invalidTokenPair [], by decide⟩, hne, ?_⟩
  cases hres : loadTokens raw with
  | error e => exact Or.inl ⟨e, rfl⟩
  | ok store => exact Or.inr ⟨store, rfl, hne store hres⟩

/-- C9, amended, on a string with a doubled `|` and on a one-entry string. -/
theorem C9_loadTokens_fails_or_nonempty_witness :
    (∃ e, loadTokens "alice t1||bob t2".toList = .error e) ∧
      ([("t1".toList, "alice".toList)] : GoMap) ≠ [] :=
  ⟨(C9_loadTokens_fails_or_nonempty "alice t1||bob t2".toList).2.1 (by decide),
   (C9_loadTokens_fails_or_nonempty "alice t1".toList).2.2.2.1 _ (by decide)⟩

/-! ## CheckBearer -/

/-- C1: the middleware calls the downstream handler exactly when the value of
the `Bearer` header is not empty and is a key of the store; otherwise it
answers 401 without calling the handler; and when it calls the handler, the
request carries under `x-user` exactly the store's value for the token. -/
theorem C1_CheckBearer (creds : GoMap) (r : Request) :
    ((∃ user r2, CheckBearer creds r = .forward user r2) ↔
        (headerGet r.header bearerKey ≠ [] ∧
          (mapGet creds (headerGet r.header bearerKey)).isSome = true)) ∧
      (¬ (headerGet r.header bearerKey ≠ [] ∧
          (mapGet creds (headerGet r.header bearerKey)).isSome = true) →
        CheckBearer creds r = .deny 401) ∧
      (∀ user r2, CheckBearer creds r = .forward user r2 →
        mapGet creds (headerGet r.header bearerKey) = some user ∧
        headerValues r2.header "x-user".toList = some [user]) := by
  unfold CheckBearer
  by_cases ht : headerGet r.header bearerKey = []
  · simp [ht, StatusUnauthorized]
  · cases hg : mapGet creds (headerGet r.header bearerKey) with
    | none => simp [ht, hg, StatusUnauthorized]
    | some user => simp [ht, hg, headerValues, headerSet]

/-- C1 on an empty token with a store holding the empty key, on an unknown
token, and on a known token. -/
theorem C1_CheckBearer_witness :
    CheckBearer [([], "nobody".toList), ("token123".toList, "alice".toList)]
        ⟨[("Bearer".toList, [[]])]⟩ = .deny 401 ∧
      CheckBearer [("token123".toList, "alice".toList)]
        ⟨[("Bearer".toList, ["wrongtoken".toList])]⟩ = .deny 401 ∧
      (mapGet [("token123".toList, "alice".toList)]
          (headerGet [("Bearer".toList, ["token123".toList])] bearerKey)
        = some "alice".toList ∧
       headerValues [("x-user".toList, ["alice".toList]),
          ("Bearer".toList, ["token123".toList])] "x-user".toList
        = some ["alice".toList]) :=
  ⟨(C1_CheckBearer [([], "nobody".toList), ("token123".toList, "alice".toList)]
      ⟨[("Bearer".toList, [[]])]⟩).2.1 (by decide),
   (C1_CheckBearer [("token123".toList, "alice".toList)]
      ⟨[("Bearer".toList, ["wrongtoken".toList])]⟩).2.1 (by decide),
   (C1_CheckBearer [("token123".toList, "alice".toList)]
      ⟨[("Bearer".toList, ["token123".toList])]⟩).2.2 "alice".toList
      ⟨[("x-user".toList, ["alice".toList]), ("Bearer".toList, ["token123".toList])]⟩
      (by decide)⟩

/-! ## The job handler -/

/-- C2: for every job `[route, command, args...]` and every outcome of the
process, the effects of the handler on the timer, the process and the response
are, in this order: the timer reset to `jobTime`, the run of `command` with
exactly `args`, the write of the body (the error text if the process returned
an error, else the captured output), the timer reset to `idleTime`. -/
theorem C2_handleJob_effects (idleTime jobTime : Nat)
    (os : GoString → List GoString → ProcResult)
    (route command : GoString) (args : List GoString) :
    (handleJob idleTime jobTime os (route :: command :: args)).filter (fun e => !e.isLog)
      = [.timerReset jobTime, .run command args,
         .write (match (os command args).err with
                 | some e => e
                 | none => (os command args).out),
         .timerReset idleTime] := by
  simp [handleJob, Effect.isLog]

/-! ## The idle timer -/

/-- C10 fails on the code: when `Shutdown` returns an error and `ListenAndServe`
returns `ErrServerClosed`, the schedule in which the serve goroutine closes
the channel before the idle-race goroutine sends its error ends in the panic
of a send on a closed channel; the error is never delivered. -/
theorem C10_send_on_closed_channel :
    (Sys.run ⟨some "context deadline exceeded".toList, .serverClosed⟩
        [.race, .serve, .serve, .race, .race]).panicked = some .sendOnClosed ∧
      (Sys.run ⟨some "context deadline exceeded".toList, .serverClosed⟩
        [.race, .serve, .serve, .race, .race]).chan
        = { buf := [], closed := true } ∧
      (Sys.run ⟨some "context deadline exceeded".toList, .serverClosed⟩
        [.race, .serve, .serve, .race, .race]).sends = 0 := by
  decide

theorem Sys.step_clean (s : Sys) (a : Actor) (h : Sys.Clean s) :
    Sys.Clean (Sys.step ⟨none, .serverClosed⟩ s a) := by
  rcases s with ⟨⟨buf, closed⟩, race, serve, called, panicked, sends, closes⟩
  obtain ⟨h1, h2, h3, h4, h5⟩ := h
  simp only at h1 h2 h3 h4 h5
  subst h1 h2 h3
  rcases h5 with ⟨hs, hc, hn⟩ | ⟨hs, hc, hn⟩
  · subst hc hn
    rcases hs with hs | hs
    · subst hs
      cases a <;> cases race <;> cases called <;> simp_all [Sys.step, Sys.Clean]
    · subst hs
      cases a <;> cases race <;> cases called <;> simp_all [Sys.step, Sys.Clean]
  · subst hs hc hn
    cases a <;> cases race <;> cases called <;> simp_all [Sys.step, Sys.Clean]

/-- The part of C10 that holds: when `Shutdown` returns no error and
`ListenAndServe` returns `ErrServerClosed`, no schedule panics, sends a value
or closes the channel twice, and the channel is closed, carrying no error,
once the serve goroutine has finished, whether the idle race or `main` called
`Shutdown`. -/
theorem clean_shutdown_closes_without_error (schedule : List Actor) :
    (Sys.run ⟨none, .serverClosed⟩ schedule).panicked = none ∧
      (Sys.run ⟨none, .serverClosed⟩ schedule).sends = 0 ∧
      (Sys.run ⟨none, .serverClosed⟩ schedule).chan.buf = [] ∧
      (Sys.run ⟨none, .serverClosed⟩ schedule).closes ≤ 1 ∧
      ((Sys.run ⟨none, .serverClosed⟩ schedule).serve = .finished →
        (Sys.run ⟨none, .serverClosed⟩ schedule).chan.closed = true) ∧
      (Sys.run ⟨none, .serverClosed⟩ [.race, .race, .serve, .serve]).chan
        = { buf := [], closed := true } ∧
      (Sys.run ⟨none, .serverClosed⟩ [.main, .serve, .serve, .race, .race]).chan
        = { buf := [], closed := true } := by
  have hinv : ∀ (sch : List Actor) (s : Sys), Sys.Clean s →
      Sys.Clean (sch.foldl (Sys.step ⟨none, .serverClosed⟩) s) := by
    intro sch
    induction sch with
    | nil => exact fun s hs => hs
    | cons a rest ih => exact fun s hs => ih _ (Sys.step_clean s a hs)
  have h0 : Sys.Clean Sys.init := by
    simp [Sys.Clean, Sys.init]
  obtain ⟨h1, h2, h3, _, h5⟩ := hinv schedule Sys.init h0
  refine ⟨h1, h2, h3, ?_, ?_, by decide, by decide⟩
  · rcases h5 with ⟨_, _, hn⟩ | ⟨_, _, hn⟩ <;>
      (show (List.foldl (Sys.step ⟨none, .serverClosed⟩) Sys.init schedule).closes ≤ 1) <;>
      omega
  · intro hf
    rcases h5 with ⟨hs, _, _⟩ | ⟨_, hc, _⟩
    · rcases hs with hs | hs <;>
        (have hf2 : (List.foldl (Sys.step ⟨none, .serverClosed⟩) Sys.init schedule).serve
            = .finished := hf) <;>
        rw [hs] at hf2 <;> cases hf2
    · exact hc

end TiredManager
